import Mathlib

/-!
Shallow embedding of the score-to-event conversion engine:
the MusicXML path (`parseXMLString`, `stepToMidi`, `convertToMIDI`,
`extractMXLFallback` from `src/mxl2midi.js`) and the Standard MIDI File
path (`parseMidiFile` with its VLQ reader `readVar` from the main script).

Numbers: JS numbers are modelled as `Int`/`Rat` (all values exercised here
are exact in binary floating point, so `Rat` arithmetic agrees with JS);
byte buffers are `List Nat` with entries `< 256`; out-of-range reads model
the JS coercion `undefined & mask = 0` and are only exercised by claims on
well-formed buffers.  JS strings produced by `decodeText` are modelled as
byte sequences: ASCII search patterns can never overlap a multi-byte UTF-8
sequence (continuation bytes are `≥ 0x80`), so `indexOf`/`substring` on the
decoded text coincide with byte-level search/prefix on the same window.
-/

/-- JS `Math.round`: round half toward positive infinity. -/
def jsRound (q : ℚ) : ℤ := ⌊q + 1/2⌋

/-- The dedup time key `Math.round(note.startTime * 100) / 100`. -/
def timeKey (q : ℚ) : ℚ := (jsRound (q * 100) : ℚ) / 100

/-! ## MusicXML side: data model of the parsed DOM fragments -/

/-- A valid `<step>` text content; the claims only exercise the seven
valid note letters (an invalid letter would make `steps[step]` undefined
and the midi value NaN, a case no claim touches). -/
inductive StepName where
  | C | D | E | F | G | A | B
  deriving DecidableEq, Repr

/-- The `steps` lookup table of `stepToMidi`. -/
def stepsVal : StepName → ℤ
  | .C => 0 | .D => 2 | .E => 4 | .F => 5 | .G => 7 | .A => 9 | .B => 11

/-- `MXL2MIDI.stepToMidi`: `(octave + 1) * 12 + steps[step] + alter`. -/
def stepToMidi (step : StepName) (octave alter : ℤ) : ℤ :=
  (octave + 1) * 12 + stepsVal step + alter

/-- A `<pitch>` element: each required sub-element may be missing in the
document (`querySelector` returning null). -/
structure PitchElem where
  step : Option StepName
  octave : Option ℤ
  alter : Option ℤ
  deriving DecidableEq, Repr

/-- One child element of a `<measure>`, as inspected by the per-measure
loop of `parseXMLString`.  `dur` is the optional `<duration>` child. -/
inductive MChild where
  | backup (dur : Option ℤ)
  | forward (dur : Option ℤ)
  | note (pitch : Option PitchElem) (rest : Bool) (chord : Bool) (dur : Option ℤ)
  | other
  deriving DecidableEq, Repr

/-- A note or rest record pushed into `scoreData.measures[mIdx].notes`.
For rests the JS object carries no `midiNote`/`isChord` fields (they are
never read for rests downstream); they are defaulted here. -/
structure ScoreNote where
  isRest : Bool
  midiNote : ℤ := 0
  duration : ℤ
  time : ℤ
  isChord : Bool := false
  part : ℕ
  deriving DecidableEq, Repr

/-- Processing of one measure child: state is `(currentTime, notes so far
in this measure)`.  `Except.error` models an uncaught TypeError: a
`<note>` with a `<pitch>` whose `<step>` or `<octave>` is missing makes
`querySelector(..)` return null and the `.textContent` access throw. -/
def processChild (partIdx : ℕ) (st : ℤ × List ScoreNote) (c : MChild) :
    Except Unit (ℤ × List ScoreNote) :=
  match c with
  | .backup dur =>
      .ok (match dur with | some d => st.1 - d | none => st.1, st.2)
  | .forward dur =>
      .ok (match dur with | some d => st.1 + d | none => st.1, st.2)
  | .note pitch rest chord dur =>
      let noteDuration := dur.getD 0
      match pitch with
      | some p =>
          match p.step, p.octave with
          | some stp, some oct =>
              let alterVal := p.alter.getD 0
              let nd : ScoreNote :=
                { isRest := false, midiNote := stepToMidi stp oct alterVal,
                  duration := noteDuration, time := st.1,
                  isChord := chord, part := partIdx }
              .ok (if !chord && dur.isSome then st.1 + noteDuration else st.1,
                   st.2 ++ [nd])
          | _, _ => .error ()
      | none =>
          if rest && dur.isSome then
            .ok (st.1 + noteDuration,
                 st.2 ++ [{ isRest := true, duration := noteDuration,
                            time := st.1, part := partIdx }])
          else .ok st
  | .other => .ok st

/-- One part-measure: fold the children with `currentTime` seeded at 0,
appending notes to the measure's already accumulated list. -/
def processChildren (partIdx : ℕ) (children : List MChild)
    (notes : List ScoreNote) : Except Unit (List ScoreNote) :=
  (children.foldlM (processChild partIdx) (0, notes)).map Prod.snd

/-- One part: walk its measures in order against the pre-allocated
measure accumulator.  The accumulator is pre-allocated to the longest
part's measure count, so it is never shorter than the part; the `[]`
accumulator case is unreachable. -/
def processPartAux (partIdx : ℕ) :
    List (List MChild) → List (List ScoreNote) →
    Except Unit (List (List ScoreNote))
  | [], acc => .ok acc
  | _ :: _, [] => .ok []
  | m :: ms, a :: as => do
      let a' ← processChildren partIdx m a
      let rest ← processPartAux partIdx ms as
      return a' :: rest

/-- All parts, in document order, with their indices. -/
def processParts : ℕ → List (List (List MChild)) → List (List ScoreNote) →
    Except Unit (List (List ScoreNote))
  | _, [], acc => .ok acc
  | partIdx, p :: ps, acc => do
      let acc' ← processPartAux partIdx p acc
      processParts (partIdx + 1) ps acc'

/-- The pieces of the XML document that `parseXMLString` inspects.
Nested optional elements (`key/fifths`, `time/beats`, `time/beat-type`,
`sound[tempo]`) are flattened to leaf-level options, which is
behaviorally equivalent since each leaf falls back to the same default. -/
structure XmlDoc where
  parserError : Bool
  soundTempo : Option ℚ
  divisions : Option ℤ
  fifths : Option ℤ
  beats : Option ℤ
  beatType : Option ℤ
  parts : List (List (List MChild))
  deriving DecidableEq, Repr

/-- The `scoreData` result object of `parseXMLString`. -/
structure ScoreData where
  measures : List (List ScoreNote)
  divisions : ℤ := 1
  fifths : ℤ := 0
  beats : ℤ := 4
  beatType : ℤ := 4
  tempo : ℚ := 500000
  deriving DecidableEq, Repr

/-- Outcome of `parseXMLString`: `malformed` is the null return on a
`parsererror` node, `crashed` an uncaught exception escaping the
function (caught only by the caller `parseFile`). -/
inductive ParseResult where
  | malformed
  | crashed
  | ok (sd : ScoreData)
  deriving DecidableEq, Repr

/-- `MXL2MIDI.parseXMLString` (src/mxl2midi.js:335-485). -/
def parseXMLString (doc : XmlDoc) : ParseResult :=
  if doc.parserError then .malformed
  else
    let tempo : ℚ := match doc.soundTempo with
      | some bpm => 60000000 / bpm
      | none => 500000
    let divisions := doc.divisions.getD 1
    let fifths := doc.fifths.getD 0
    let beats := doc.beats.getD 4
    let beatType := doc.beatType.getD 4
    let maxMeasures := (doc.parts.map List.length).foldl max 0
    let initMeasures : List (List ScoreNote) := List.replicate maxMeasures []
    match processParts 0 doc.parts initMeasures with
    | .error _ => .crashed
    | .ok finalMeasures =>
        .ok { measures := finalMeasures, divisions := divisions,
              fifths := fifths, beats := beats, beatType := beatType,
              tempo := tempo }

/-! ## MusicXML side: `convertToMIDI` (src/mxl2midi.js:505-606) -/

/-- An entry of `allNotes`: resolved absolute times in milliseconds plus
the raw divisions duration used by the dedup comparison. -/
structure TNote where
  midiNote : ℤ
  startTime : ℚ
  endTime : ℚ
  duration : ℤ
  deriving DecidableEq, Repr

/-- A `midiEvents` entry `{time, data: [status, pitch, velocity]}`. -/
structure MidiEvt where
  time : ℚ
  data : List ℤ
  deriving DecidableEq, Repr

/-- A `notePairs` entry `{note, start, end}` (`end` is a Lean keyword,
renamed `endTime`). -/
structure NotePair where
  note : ℤ
  start : ℚ
  endTime : ℚ
  deriving DecidableEq, Repr

/-- `msPerDivision = (tempo / 1000) / divisions`. -/
def msPerDivisionOf (sd : ScoreData) : ℚ := sd.tempo / 1000 / sd.divisions

/-- The `allNotes` pass: absolute times for all non-rest notes whose
`midiNote` is truthy (a JS number is truthy iff nonzero). -/
def allNotesOf (sd : ScoreData) : List TNote :=
  let msPerDivision := msPerDivisionOf sd
  let divisionsPerMeasure : ℚ := (sd.beats * sd.divisions * 4 : ℚ) / sd.beatType
  let msPerMeasure := divisionsPerMeasure * msPerDivision
  (sd.measures.enum.map (fun mi =>
    let measureStartTime := (mi.1 : ℚ) * msPerMeasure
    (mi.2.filter (fun n => !n.isRest && n.midiNote != 0)).map (fun n =>
      { midiNote := n.midiNote,
        startTime := measureStartTime + (n.time : ℚ) * msPerDivision,
        endTime := measureStartTime + (n.time : ℚ) * msPerDivision
                     + (n.duration : ℚ) * msPerDivision,
        duration := n.duration }))).flatten

/-- Inner `Map` of the dedup (`midiKey ↦ note`), as an association list in
key insertion order; `Map.set` on a present key keeps its position.  A
strictly greater `duration` replaces the kept note, ties keep the first. -/
def insertInner (k : ℤ) (n : TNote) : List (ℤ × TNote) → List (ℤ × TNote)
  | [] => [(k, n)]
  | (k', e) :: rest =>
      if k' = k then (if n.duration > e.duration then (k', n) else (k', e)) :: rest
      else (k', e) :: insertInner k n rest

/-- Outer `Map` of the dedup (`timeKey ↦ inner map`), insertion ordered. -/
def insertOuter (tk : ℚ) (n : TNote) :
    List (ℚ × List (ℤ × TNote)) → List (ℚ × List (ℤ × TNote))
  | [] => [(tk, [(n.midiNote, n)])]
  | (tk', inner) :: rest =>
      if tk' = tk then (tk', insertInner n.midiNote n inner) :: rest
      else (tk', inner) :: insertOuter tk n rest

/-- The `notesByTime` nested map after the dedup fold. -/
def buildMap (l : List TNote) : List (ℚ × List (ℤ × TNote)) :=
  l.foldl (fun m n => insertOuter (timeKey n.startTime) n m) []

/-- The notes stored in a nested map, in `forEach` iteration order. -/
def storedNotes (m : List (ℚ × List (ℤ × TNote))) : List TNote :=
  m.flatMap (fun g => g.2.map Prod.snd)

/-- The surviving notes in `notesByTime.forEach` iteration order. -/
def survivors (l : List TNote) : List TNote :=
  storedNotes (buildMap l)

/-- Result object of `convertToMIDI` / of the merge step. -/
structure ConvertResult where
  midiEvents : List MidiEvt
  notePairs : List NotePair
  totalDuration : ℚ
  deriving DecidableEq, Repr

/-- The merge step of `convertToMIDI` on a resolved note list: dedup,
note-on/note-off emission, stable sort by time (JS `Array.prototype.sort`
is stable; `List.insertionSort` with this relation is the same stable
sort), and `totalDuration` from the last event. -/
def merge (l : List TNote) : ConvertResult :=
  let svs := survivors l
  let evs := svs.flatMap (fun n =>
    [{ time := n.startTime, data := [0x90, n.midiNote, 100] },
     { time := n.endTime, data := [0x80, n.midiNote, 0] }])
  let sorted := evs.insertionSort (fun a b => a.time ≤ b.time)
  { midiEvents := sorted,
    notePairs := svs.map (fun n =>
      { note := n.midiNote, start := n.startTime, endTime := n.endTime }),
    totalDuration := match sorted.getLast? with
      | some e => e.time
      | none => 0 }

/-- `MXL2MIDI.convertToMIDI` on a parsed score. -/
def convertToMIDI (sd : ScoreData) : ConvertResult :=
  merge (allNotesOf sd)

/-! ## SMF side: `parseMidiFile` and its VLQ reader `readVar` -/

/-- Byte access `data[pos]` on a `Uint8Array`: an out-of-range read yields
`undefined`, which every bitwise use in the parser coerces to 0. -/
def byteAt (data : List ℕ) (pos : ℕ) : ℕ := data.getD pos 0

/-- `readVar` on the bytes from the read position: accumulates 7 bits per
byte (`v = (v << 7) | (b & 0x7f)`) while the continuation (high) bit is
set.  Returns the value and the number of positions consumed; an
exhausted buffer behaves as byte 0 (one final position consumed). -/
def readVar : List ℕ → ℕ → ℕ × ℕ
  | [], v => (v * 128, 1)
  | b :: rest, v =>
      if b / 128 % 2 = 1 then
        let r := readVar rest (v * 128 + b % 128)
        (r.1, r.2 + 1)
      else (v * 128 + b % 128, 1)

/-- Modelled from the spec: the standard MIDI variable-length-quantity
encoder (big-endian 7-bit groups, continuation bit on all but the last
byte); the repository only contains the decoder.  Auxiliary: the
continuation-marked high groups of a value. -/
def vlqEncodeAux : ℕ → List ℕ
  | 0 => []
  | m + 1 => vlqEncodeAux ((m + 1) / 128) ++ [(m + 1) % 128 + 128]
decreasing_by exact Nat.div_lt_self (Nat.succ_pos m) (by omega)

/-- Modelled from the spec: the standard VLQ encoding of `n`. -/
def vlqEncode (n : ℕ) : List ℕ := vlqEncodeAux (n / 128) ++ [n % 128]

/-- A raw track event `{tick, data: [statusByte, d1, d2]}`; `time` is the
millisecond timestamp assigned after the tempo-map pass. -/
structure TickEvt where
  tick : ℕ
  data : List ℕ
  time : ℚ := 0
  deriving DecidableEq, Repr

/-- A tempo-map entry `{tick, tempo, ms}`. -/
structure TempoEntry where
  tick : ℕ
  tempo : ℕ
  ms : ℚ := 0
  deriving DecidableEq, Repr

/-- The ASCII bytes of the `MThd` chunk magic. -/
def mthdBytes : List ℕ := [0x4D, 0x54, 0x68, 0x64]

/-- The ASCII bytes of the `MTrk` chunk magic. -/
def mtrkBytes : List ℕ := [0x4D, 0x54, 0x72, 0x6B]

/-- Big-endian `read16`. -/
def read16 (data : List ℕ) (pos : ℕ) : ℕ :=
  byteAt data pos * 256 + byteAt data (pos + 1)

/-- Big-endian `read32`. -/
def read32 (data : List ℕ) (pos : ℕ) : ℕ :=
  byteAt data pos * 16777216 + byteAt data (pos + 1) * 65536 +
    byteAt data (pos + 2) * 256 + byteAt data (pos + 3)

/-- The track event loop `while (pos < end)`.  Each iteration consumes at
least one position (the delta-time read consumes ≥ 1), so `end - pos`
units of fuel always suffice; fuel exhaustion is unreachable from
`parseTrack`.  Running status: a status byte with a clear high bit is
pushed back and the previous status byte `rs` is reused (`null` coerces
to 0 in the nibble tests, matching `rs.getD 0`). -/
def parseTrackGo (data : List ℕ) :
    ℕ → ℕ → ℕ → ℕ → Option ℕ → List TickEvt → List TempoEntry →
    List TickEvt × List TempoEntry × ℕ
  | 0, pos, _, _, _, evs, tm => (evs, tm, pos)
  | fuel + 1, pos, endPos, curTick, rs, evs, tm =>
      if pos < endPos then
        let dt := readVar (data.drop pos) 0
        let tick' := curTick + dt.1
        let pos1 := pos + dt.2
        let s0 := byteAt data pos1
        let s := if s0 / 128 % 2 = 0 then rs.getD 0 else s0
        let rs' := if s0 / 128 % 2 = 0 then rs else some s0
        let pos2 := if s0 / 128 % 2 = 0 then pos1 else pos1 + 1
        let ty := s / 16 % 16 * 16
        if ty = 0x80 ∨ ty = 0x90 then
          parseTrackGo data fuel (pos2 + 2) endPos tick' rs'
            (evs ++ [{ tick := tick',
                       data := [s, byteAt data pos2, byteAt data (pos2 + 1)] }]) tm
        else if s = 0xFF then
          let m := byteAt data pos2
          let ml := readVar (data.drop (pos2 + 1)) 0
          let p := pos2 + 1 + ml.2
          let tm' := if m = 0x51 then
              tm ++ [{ tick := tick',
                       tempo := byteAt data p * 65536 + byteAt data (p + 1) * 256 +
                                  byteAt data (p + 2) }]
            else tm
          parseTrackGo data fuel (p + ml.1) endPos tick' rs' evs tm'
        else if ty = 0xB0 ∨ ty = 0xE0 then
          parseTrackGo data fuel (pos2 + 2) endPos tick' rs' evs tm
        else if ty = 0xC0 ∨ ty = 0xD0 then
          parseTrackGo data fuel (pos2 + 1) endPos tick' rs' evs tm
        else
          parseTrackGo data fuel pos2 endPos tick' rs' evs tm
      else (evs, tm, pos)

/-- One track body starting at `pos` with declared end `endPos`; returns
the accumulated events, tempo entries, and the final read position (the
next track continues from wherever the loop left the cursor). -/
def parseTrack (data : List ℕ) (pos endPos : ℕ) (evs : List TickEvt)
    (tm : List TempoEntry) : List TickEvt × List TempoEntry × ℕ :=
  parseTrackGo data (endPos - pos) pos endPos 0 none evs tm

/-- The `for (i = 0; i < tracks; i++)` loop: verify `MTrk` (breaking out
on a mismatch), read the length, and run the track body. -/
def parseTracksGo (data : List ℕ) :
    ℕ → ℕ → List TickEvt → List TempoEntry → List TickEvt × List TempoEntry
  | 0, _, evs, tm => (evs, tm)
  | i + 1, pos, evs, tm =>
      if (data.drop pos).take 4 = mtrkBytes then
        let len := read32 data (pos + 4)
        let r := parseTrack data (pos + 8) (pos + 8 + len) evs tm
        parseTracksGo data i r.2.2 r.1 r.2.1
      else (evs, tm)

/-- The cumulative-milliseconds pass over the sorted tempo map, carrying
the previous entry's tick and tempo (`lastT`) and the running total. -/
def cumMsGo (dv : ℚ) : ℕ × ℕ → ℚ → List TempoEntry → List TempoEntry
  | _, _, [] => []
  | last, curMs, tm :: rest =>
      let curMs' := curMs + ((tm.tick : ℚ) - (last.1 : ℚ)) / dv * ((last.2 : ℚ) / 1000)
      { tm with ms := curMs' } :: cumMsGo dv (tm.tick, tm.tempo) curMs' rest

/-- `lastT` is seeded with `tempoMap[0]` and the walk covers the whole
map, so the first entry contributes a zero increment. -/
def cumMs (dv : ℚ) : List TempoEntry → List TempoEntry
  | [] => []
  | t0 :: rest => cumMsGo dv (t0.tick, t0.tempo) 0 (t0 :: rest)

/-- The linear scan `for (t of tempoMap) if (t.tick <= ev.tick) … else
break`, keeping the last entry with `tick ≤ ev.tick`. -/
def findActive (tick : ℕ) : List TempoEntry → TempoEntry → TempoEntry
  | [], a => a
  | t :: rest, a => if t.tick ≤ tick then findActive tick rest t else a

/-- `activeTempo` starts at `tempoMap[0]`; the map is always seeded with
the default entry, so the empty case is unreachable. -/
def activeTempoFor (tm : List TempoEntry) (tick : ℕ) : TempoEntry :=
  match tm with
  | [] => { tick := 0, tempo := 500000 }
  | t0 :: _ => findActive tick tm t0

/-- Assign `ev.time` from the active tempo entry. -/
def assignTimes (dv : ℚ) (tm : List TempoEntry) (evs : List TickEvt) :
    List TickEvt :=
  evs.map (fun ev =>
    let a := activeTempoFor tm ev.tick
    { ev with
      time := a.ms + ((ev.tick : ℚ) - (a.tick : ℚ)) / dv * ((a.tempo : ℚ) / 1000) })

/-- `tempNotes[note] = startMs` insert-or-replace. -/
def upsertKey : List (ℕ × ℚ) → ℕ → ℚ → List (ℕ × ℚ)
  | [], k, v => [(k, v)]
  | (k', v') :: rest, k, v =>
      if k' = k then (k, v) :: rest else (k', v') :: upsertKey rest k v

/-- `delete tempNotes[note]`. -/
def removeKey : List (ℕ × ℚ) → ℕ → List (ℕ × ℚ)
  | [], _ => []
  | (k', v') :: rest, k =>
      if k' = k then rest else (k', v') :: removeKey rest k

/-- A `notePairs` entry is closed by a note-off (status `0x80`, or `0x90`
with velocity 0) for a pitch with a pending note-on. -/
def buildPairsGo : List (ℕ × ℚ) → List TickEvt → List NotePair
  | _, [] => []
  | temp, ev :: rest =>
      let status := ev.data.getD 0 0
      let note := ev.data.getD 1 0
      let vel := ev.data.getD 2 0
      let ty := status / 16 % 16 * 16
      if ty = 0x90 ∧ vel > 0 then
        buildPairsGo (upsertKey temp note ev.time) rest
      else if ty = 0x80 ∨ (ty = 0x90 ∧ vel = 0) then
        match (temp.find? (fun p => p.1 == note)).map Prod.snd with
        | some st =>
            { note := (note : ℤ), start := st, endTime := ev.time } ::
              buildPairsGo (removeKey temp note) rest
        | none => buildPairsGo temp rest
      else buildPairsGo temp rest

/-- Result of `parseMidiFile` as observable through the globals it sets
and the messages it surfaces through `log` (the only caller-visible
diagnostic channel). -/
structure MidiFileResult where
  midiEvents : List TickEvt
  notePairs : List NotePair
  totalDuration : ℚ
  logs : List String
  deriving DecidableEq, Repr

/-- `parseMidiFile` (main script): `clearCurrentFile` resets all state,
then the header check `if (readStr(4) !== "MThd") return;` aborts
silently — no `log` and no error on that path.  On success the header is
14 bytes (magic, length, format, track count, division), tracks are
decoded, both the tempo map and the event list are stably sorted by tick
(JS sort is stable; `insertionSort` here is the same stable sort), the
cumulative-ms pass runs, and every event gets its absolute time. -/
def parseMidiFile (data : List ℕ) : MidiFileResult :=
  if data.take 4 ≠ mthdBytes then
    { midiEvents := [], notePairs := [], totalDuration := 0, logs := [] }
  else
    let tracks := read16 data 10
    let dv := read16 data 12
    let r := parseTracksGo data tracks 14 [] [{ tick := 0, tempo := 500000, ms := 0 }]
    let tm := cumMs (dv : ℚ) (r.2.insertionSort (fun a b => a.tick ≤ b.tick))
    let evs := assignTimes (dv : ℚ) tm (r.1.insertionSort (fun a b => a.tick ≤ b.tick))
    { midiEvents := evs,
      notePairs := buildPairsGo [] evs,
      totalDuration := match evs.getLast? with
        | some e => e.time
        | none => 0,
      logs := ["File Ready."] }

/-! ## ZIP side: the byte-pattern fallback `extractMXLFallback`
(src/mxl2midi.js:301-328) and the local-file-header signature of
`parseZIP` (src/mxl2midi.js:248). -/

/-- The bytes of the ZIP local-file-header signature (`0x04034b50`
little-endian on the wire) at offset `i`. -/
def zipSigAt (data : List ℕ) (i : ℕ) : Bool :=
  byteAt data i == 0x50 && byteAt data (i + 1) == 0x4B &&
  byteAt data (i + 2) == 0x03 && byteAt data (i + 3) == 0x04

/-- No local-file-header signature anywhere in the buffer (the signature
bytes are nonzero, so offsets at or past the end can never match and
scanning `range data.length` is exhaustive). -/
def noZipSig (data : List ℕ) : Bool :=
  (List.range data.length).all (fun i => !zipSigAt data i)

/-- The 5 prolog bytes `<?xml` tested at offset `i`. -/
def prologAt (data : List ℕ) (i : ℕ) : Bool :=
  byteAt data i == 0x3C && byteAt data (i + 1) == 0x3F &&
  byteAt data (i + 2) == 0x78 && byteAt data (i + 3) == 0x6D &&
  byteAt data (i + 4) == 0x6C

/-- ASCII bytes of the closing tag `</score-partwise>` (17 bytes). -/
def partwiseTag : List ℕ :=
  [60, 47, 115, 99, 111, 114, 101, 45, 112, 97, 114, 116, 119, 105, 115, 101, 62]

/-- ASCII bytes of the closing tag `</score-timewise>` (17 bytes). -/
def timewiseTag : List ℕ :=
  [60, 47, 115, 99, 111, 114, 101, 45, 116, 105, 109, 101, 119, 105, 115, 101, 62]

/-- `String.prototype.indexOf`: index of the first occurrence of `pat`. -/
def idxOf (pat : List ℕ) : List ℕ → Option ℕ
  | [] => if pat.isPrefixOf [] then some 0 else none
  | b :: rest =>
      if pat.isPrefixOf (b :: rest) then some 0
      else (idxOf pat rest).map (· + 1)

/-- `indexOf(endTag)`, falling back to `indexOf(endTag2)` when -1; both
tags are 17 characters, so the later `endTag.length` truncation is the
same for either match. -/
def tagSearch (content : List ℕ) : Option ℕ :=
  match idxOf partwiseTag content with
  | some j => some j
  | none => idxOf timewiseTag content

/-- The decoded window `zipData.slice(i, i + min(length - i, 5000000))`. -/
def fallbackWindow (data : List ℕ) (i : ℕ) : List ℕ :=
  (data.drop i).take (min (data.length - i) 5000000)

/-- The scan loop of `extractMXLFallback` over offsets `i < length - 5`;
fuel counts the remaining iterations (`length - 5` at the start covers
every offset the loop can visit). -/
def fallbackGo (data : List ℕ) : ℕ → ℕ → Option (List ℕ)
  | 0, _ => none
  | fuel + 1, i =>
      if i < data.length - 5 then
        if prologAt data i then
          match tagSearch (fallbackWindow data i) with
          | some endIdx => some ((fallbackWindow data i).take (endIdx + 17))
          | none => fallbackGo data fuel (i + 1)
        else fallbackGo data fuel (i + 1)
      else none

/-- `MXL2MIDI.extractMXLFallback`: scan for `<?xml`, decode the bounded
window, truncate after the first closing tag; `null` when nothing
qualifies. -/
def extractMXLFallback (data : List ℕ) : Option (List ℕ) :=
  fallbackGo data (data.length - 5) 0

/-- A measure child is a note whose `<pitch>` lacks `<step>` or
`<octave>`; processing it throws a TypeError. -/
def badPitchChild : MChild → Bool
  | .note (some p) _ _ _ => p.step.isNone || p.octave.isNone
  | _ => false

/-! ## Concrete inputs used by the claims -/

/-- C1 failing input: one part, one measure, a quarter-note C4 followed
by a chord-member E4 (its `<note>` has a `<chord>` child). -/
def docC1 : XmlDoc :=
  { parserError := false, soundTempo := none, divisions := some 1,
    fifths := none, beats := none, beatType := none,
    parts := [[[ MChild.note (some ⟨some .C, some 4, none⟩) false false (some 1),
                 MChild.note (some ⟨some .E, some 4, none⟩) false true (some 1) ]]] }

/-- What `parseXMLString` actually produces on `docC1`. -/
def sdC1 : ScoreData :=
  { measures := [[ { isRest := false, midiNote := 60, duration := 1,
                     time := 0, isChord := false, part := 0 },
                   { isRest := false, midiNote := 64, duration := 1,
                     time := 1, isChord := true, part := 0 } ]],
    divisions := 1, fifths := 0, beats := 4, beatType := 4, tempo := 500000 }

/-- C2 input: the end-to-end example A score document. -/
def sdC2 : ScoreData :=
  { measures := [[ { isRest := false, midiNote := 60, duration := 1, time := 0, part := 0 },
                   { isRest := true, duration := 1, time := 1, part := 0 },
                   { isRest := false, midiNote := 64, duration := 1, time := 2, part := 0 } ]],
    divisions := 1, beats := 4, beatType := 4, tempo := 500000 }

/-- C3 counterexample input: first four bytes are not `MThd`. -/
def bytesC3 : List ℕ := [0, 0, 0, 0]

/-- C4 counterexample input: a well-formed C4 note followed by a note
whose `<pitch>` has an `<octave>` but no `<step>`. -/
def docC4 : XmlDoc :=
  { parserError := false, soundTempo := none, divisions := some 1,
    fifths := none, beats := none, beatType := none,
    parts := [[[ MChild.note (some ⟨some .C, some 4, none⟩) false false (some 1),
                 MChild.note (some ⟨none, some 4, none⟩) false false (some 1) ]]] }

/-- C5 input: SMF with division 480, one track, set-tempo 500000 at tick
0, note-on (pitch 60) at tick 0, note-off at tick 480. -/
def bytesC5 : List ℕ :=
  [0x4D, 0x54, 0x68, 0x64, 0, 0, 0, 6, 0, 0, 0, 1, 0x01, 0xE0,
   0x4D, 0x54, 0x72, 0x6B, 0, 0, 0, 0x10,
   0x00, 0xFF, 0x51, 0x03, 0x07, 0xA1, 0x20,
   0x00, 0x90, 0x3C, 0x64,
   0x83, 0x60, 0x80, 0x3C, 0x00]

/-- C6 concrete notes: `shortC6` and `longC6` share the rounded start
time and pitch with differing durations; `tieC6` matches `shortC6`'s
key and duration but differs elsewhere. -/
def shortC6 : TNote := { midiNote := 60, startTime := 100, endTime := 300, duration := 2 }

/-- The longer-duration duplicate of `shortC6`. -/
def longC6 : TNote := { midiNote := 60, startTime := 100, endTime := 500, duration := 4 }

/-- An equal-duration duplicate of `shortC6` (ties keep the first seen). -/
def tieC6 : TNote := { midiNote := 60, startTime := 100, endTime := 400, duration := 2 }

/-- C9 input: garbage bytes, then `<?xml`, a filler byte, and the
closing `</score-partwise>` tag; contains no local-file-header
signature. -/
def dataC9 : List ℕ :=
  [0xFF, 0x17] ++ [0x3C, 0x3F, 0x78, 0x6D, 0x6C] ++ [0x20] ++ partwiseTag ++ [0x99]

/-- C10 input: a single non-rest note whose computed MIDI pitch is 0
(step C, octave -1, alter 0). -/
def sdC10 : ScoreData :=
  { measures := [[ { isRest := false, midiNote := stepToMidi .C (-1) 0,
                     duration := 1, time := 0, part := 0 } ]] }

/-- Invariant of the dedup map `notesByTime`: every group is nonempty,
outer keys are distinct, inner keys are distinct within a group, and
every stored entry sits under its own time key and pitch. -/
def GoodMap (m : List (ℚ × List (ℤ × TNote))) : Prop :=
  (∀ g ∈ m, g.2 ≠ [] ∧ (g.2.map Prod.fst).Nodup ∧
    ∀ p ∈ g.2, g.1 = timeKey p.2.startTime ∧ p.1 = p.2.midiNote) ∧
  (m.map Prod.fst).Nodup

/-! ## Theorems -/

/-- C1 (code bug): the claim requires every chord member to carry the
same measure-relative onset (`time`) as the group's first rendered note,
with the clock advancing only once the group is consumed.  The code
instead advances `currentTime` at the lead note itself (`if (!chord &&
duration) currentTime += noteDuration` runs before the members are
seen), so at the failing input `docC1` the chord member E4 is recorded
at onset 1 = lead onset + lead duration, not at the lead's onset 0. -/
theorem parseXMLString_chordMember_onset_shifted :
    parseXMLString docC1 = ParseResult.ok sdC1 ∧
    ((sdC1.measures.getD 0 []).map ScoreNote.time = [0, 1] ∧
     (sdC1.measures.getD 0 []).map ScoreNote.isChord = [false, true]) := by
  decide

/-- C3 counterexample: on a buffer whose first 4 bytes are not `MThd`,
`parseMidiFile` leaves no partial result but also surfaces nothing — the
`log` channel stays empty, so the failure is silently swallowed, against
the claim that it is reported to the caller. -/
theorem parseMidiFile_invalidHeader_swallowed :
    parseMidiFile bytesC3 =
      { midiEvents := [], notePairs := [], totalDuration := 0, logs := [] } ∧
    (parseMidiFile bytesC3).logs = [] := by
  decide

/-- C3 amended: for every buffer whose first 4 bytes are not the ASCII
`MThd`, the parse aborts with no partial result (no events, no pairs,
zero duration) but emits no diagnostic at all — the early `return` is
silent. -/
theorem parseMidiFile_invalidHeader_aborts (data : List ℕ)
    (h : data.take 4 ≠ mthdBytes) :
    parseMidiFile data =
      { midiEvents := [], notePairs := [], totalDuration := 0, logs := [] } := by
  unfold parseMidiFile
  rw [if_pos h]

/-- Witness for the C3 amended theorem at a concrete non-SMF buffer. -/
theorem parseMidiFile_invalidHeader_aborts_witness :
    [0x52, 0x49, 0x46, 0x46].take 4 ≠ mthdBytes ∧
    parseMidiFile [0x52, 0x49, 0x46, 0x46] =
      { midiEvents := [], notePairs := [], totalDuration := 0, logs := [] } :=
  ⟨by decide, parseMidiFile_invalidHeader_aborts [0x52, 0x49, 0x46, 0x46] (by decide)⟩

/-- C4 counterexample: on `docC4` — a well-formed C4 note followed by a
note whose pitch lacks `<step>` — `parseXMLString` does not skip the bad
note and return the rest: the `.textContent` access on the null
`querySelector('step')` result throws and the whole parse aborts. -/
theorem parseXMLString_missingStep_crashes :
    parseXMLString docC4 = ParseResult.crashed ∧
    ¬ ∃ sd, parseXMLString docC4 = ParseResult.ok sd := by
  refine ⟨by decide, ?_⟩
  rintro ⟨sd, h⟩
  rw [show parseXMLString docC4 = ParseResult.crashed from by decide] at h
  exact ParseResult.noConfusion h


/-- C2: end-to-end example A — divisions 1, 4/4, tempo 500000 µs per
quarter, a measure of quarter C4, quarter rest, quarter E4:
msPerDivision is 500, C4 spans 0–500 ms, E4 spans 1000–1500 ms, and
totalDuration is 1500. -/
theorem convertToMIDI_exampleA :
    msPerDivisionOf sdC2 = 500 ∧
    convertToMIDI sdC2 =
      { midiEvents := [⟨0, [0x90, 60, 100]⟩, ⟨500, [0x80, 60, 0]⟩,
                       ⟨1000, [0x90, 64, 100]⟩, ⟨1500, [0x80, 64, 0]⟩],
        notePairs := [⟨60, 0, 500⟩, ⟨64, 1000, 1500⟩],
        totalDuration := 1500 } := by
  norm_num [convertToMIDI, merge, allNotesOf, msPerDivisionOf, survivors,
    storedNotes, buildMap, insertOuter, insertInner, timeKey, jsRound,
    sdC2, List.enum, List.enumFrom, List.filter, List.foldl, List.flatMap,
    List.insertionSort, List.orderedInsert]

/-- C5: end-to-end example B — an SMF with division 480, one set-tempo
meta event (500000 µs per quarter) at tick 0, note-on at tick 0 and
note-off at tick 480 for pitch 60 yields `timeMs` 0 for the note-on and
500 for the note-off. -/
theorem parseMidiFile_exampleB :
    (parseMidiFile bytesC5).midiEvents =
      [{ tick := 0, data := [0x90, 60, 100], time := 0 },
       { tick := 480, data := [0x80, 60, 0], time := 500 }] := by
  have htracks : parseTracksGo bytesC5 (read16 bytesC5 10) 14 []
      [{ tick := 0, tempo := 500000, ms := 0 }] =
      ([{ tick := 0, data := [0x90, 60, 100], time := 0 },
        { tick := 480, data := [0x80, 60, 0], time := 0 }],
       [{ tick := 0, tempo := 500000, ms := 0 },
        { tick := 0, tempo := 500000, ms := 0 }]) := by decide
  have hdv : read16 bytesC5 12 = 480 := by decide
  rw [parseMidiFile, if_neg (by decide)]
  simp only [hdv, htracks]
  norm_num [cumMs, cumMsGo, assignTimes, activeTempoFor, findActive,
    List.insertionSort, List.orderedInsert]

theorem processChild_bad (i : ℕ) (st : ℤ × List ScoreNote) (c : MChild)
    (h : badPitchChild c = true) : processChild i st c = .error () := by
  cases c with
  | note pitch rest chord dur =>
      cases pitch with
      | none => simp [badPitchChild] at h
      | some p =>
          cases hs : p.step with
          | none => cases ho : p.octave <;> simp [processChild, hs, ho]
          | some s =>
              cases ho : p.octave with
              | none => simp [processChild, hs, ho]
              | some o => simp [badPitchChild, hs, ho] at h
  | backup d => simp [badPitchChild] at h
  | forward d => simp [badPitchChild] at h
  | other => simp [badPitchChild] at h

theorem foldlM_exists_error {σ α : Type} (f : σ → α → Except Unit σ) :
    ∀ (l : List α) (st : σ), (∃ c ∈ l, ∀ st', f st' c = .error ()) →
      l.foldlM f st = .error () := by
  intro l
  induction l with
  | nil =>
      intro st h
      rcases h with ⟨c, hc, _⟩
      exact absurd hc (List.not_mem_nil c)
  | cons a l ih =>
      intro st h
      rcases h with ⟨c, hc, hf⟩
      rw [List.foldlM_cons]
      rcases List.mem_cons.mp hc with rfl | hmem
      · rw [hf st]; rfl
      · cases hfa : f st a with
        | error e => rfl
        | ok st' => exact ih st' ⟨c, hmem, hf⟩

theorem processChildren_bad (i : ℕ) (children : List MChild)
    (notes : List ScoreNote) (h : ∃ c ∈ children, badPitchChild c = true) :
    processChildren i children notes = .error () := by
  unfold processChildren
  rw [foldlM_exists_error (processChild i) children (0, notes)]
  · rfl
  · rcases h with ⟨c, hc, hb⟩
    exact ⟨c, hc, fun st' => processChild_bad i st' c hb⟩

theorem processPartAux_bad (i : ℕ) :
    ∀ (ms : List (List MChild)) (acc : List (List ScoreNote)),
      ms.length ≤ acc.length →
      (∃ m ∈ ms, ∃ c ∈ m, badPitchChild c = true) →
      processPartAux i ms acc = .error () := by
  intro ms
  induction ms with
  | nil =>
      intro acc _ h
      rcases h with ⟨m, hm, _⟩
      exact absurd hm (List.not_mem_nil m)
  | cons m ms ih =>
      intro acc hlen h
      cases acc with
      | nil => simp at hlen
      | cons a as =>
          rw [processPartAux]
          rcases h with ⟨m', hm', hc⟩
          rcases List.mem_cons.mp hm' with rfl | hmem
          · rw [processChildren_bad i m' a hc]; rfl
          · cases hpc : processChildren i m a with
            | error e => rfl
            | ok a' =>
                have herr : processPartAux i ms as = .error () :=
                  ih as (Nat.le_of_succ_le_succ (by simpa using hlen)) ⟨m', hmem, hc⟩
                show (processPartAux i ms as >>= fun rest => pure (a' :: rest)) = .error ()
                rw [herr]
                rfl

theorem processPartAux_length (i : ℕ) :
    ∀ (ms : List (List MChild)) (acc acc' : List (List ScoreNote)),
      processPartAux i ms acc = .ok acc' → acc'.length = acc.length := by
  intro ms
  induction ms with
  | nil =>
      intro acc acc' h
      rw [processPartAux] at h
      cases h
      rfl
  | cons m ms ih =>
      intro acc acc' h
      cases acc with
      | nil =>
          rw [processPartAux] at h
          cases h
          rfl
      | cons a as =>
          rw [processPartAux] at h
          cases hpc : processChildren i m a with
          | error e => rw [hpc] at h; cases h
          | ok a' =>
              rw [hpc] at h
              cases hpa : processPartAux i ms as with
              | error e => rw [hpa] at h; cases h
              | ok rest =>
                  rw [hpa] at h
                  cases h
                  simp [ih as rest hpa]

theorem processParts_bad :
    ∀ (ps : List (List (List MChild))) (i : ℕ) (acc : List (List ScoreNote)),
      (∀ p ∈ ps, p.length ≤ acc.length) →
      (∃ p ∈ ps, ∃ m ∈ p, ∃ c ∈ m, badPitchChild c = true) →
      processParts i ps acc = .error () := by
  intro ps
  induction ps with
  | nil =>
      intro i acc _ h
      rcases h with ⟨p, hp, _⟩
      exact absurd hp (List.not_mem_nil p)
  | cons p ps ih =>
      intro i acc hlen h
      rw [processParts]
      rcases h with ⟨p', hp', hbad⟩
      rcases List.mem_cons.mp hp' with rfl | hmem
      · rw [processPartAux_bad i p' acc (hlen p' hp') hbad]; rfl
      · cases hpa : processPartAux i p acc with
        | error e => rfl
        | ok acc' =>
            have hlen' : ∀ q ∈ ps, q.length ≤ acc'.length := by
              intro q hq
              rw [processPartAux_length i p acc acc' hpa]
              exact hlen q (List.mem_cons_of_mem p hq)
            exact ih (i + 1) acc' hlen' ⟨p', hmem, hbad⟩

theorem le_foldl_max_init (l : List ℕ) : ∀ a : ℕ, a ≤ l.foldl max a := by
  induction l with
  | nil => intro a; exact le_refl a
  | cons b l ih =>
      intro a
      exact le_trans (le_max_left a b) (ih (max a b))

theorem mem_le_foldl_max (l : List ℕ) : ∀ (a : ℕ), ∀ x ∈ l, x ≤ l.foldl max a := by
  induction l with
  | nil => intro a x h; exact absurd h (List.not_mem_nil x)
  | cons b l ih =>
      intro a x hx
      rcases List.mem_cons.mp hx with rfl | h
      · exact le_trans (le_max_right a x) (le_foldl_max_init l (max a x))
      · exact ih (max a b) x h

/-- C4 amended: for every XML document (no XML parse error) in which
some `<note>` has a `<pitch>` lacking `<step>` or `<octave>`, the parse
does not skip that note: `parseXMLString` crashes — the whole parse
aborts and no `ScoreDocument` containing the other notes is returned. -/
theorem parseXMLString_badPitch_aborts (doc : XmlDoc)
    (hpe : doc.parserError = false)
    (hbad : doc.parts.any
      (fun part => part.any (fun meas => meas.any badPitchChild)) = true) :
    parseXMLString doc = ParseResult.crashed := by
  have hex : ∃ p ∈ doc.parts, ∃ m ∈ p, ∃ c ∈ m, badPitchChild c = true := by
    rcases List.any_eq_true.mp hbad with ⟨p, hp, hpany⟩
    rcases List.any_eq_true.mp hpany with ⟨m, hm, hmany⟩
    rcases List.any_eq_true.mp hmany with ⟨c, hc, hcb⟩
    exact ⟨p, hp, m, hm, c, hc, hcb⟩
  have hall : ∀ p ∈ doc.parts,
      p.length ≤ (List.replicate ((doc.parts.map List.length).foldl max 0)
        ([] : List ScoreNote)).length := by
    intro p hp
    rw [List.length_replicate]
    exact mem_le_foldl_max _ 0 p.length (List.mem_map_of_mem List.length hp)
  have herr : processParts 0 doc.parts
      (List.replicate ((doc.parts.map List.length).foldl max 0) []) = .error () :=
    processParts_bad doc.parts 0 _ hall hex
  rw [parseXMLString, if_neg (by simp [hpe])]
  simp only [herr]

/-- Witness for the C4 amended theorem at the concrete document. -/
theorem parseXMLString_badPitch_aborts_witness :
    (docC4.parserError = false ∧
     docC4.parts.any
       (fun part => part.any (fun meas => meas.any badPitchChild)) = true) ∧
    parseXMLString docC4 = ParseResult.crashed :=
  ⟨⟨by decide, by decide⟩,
   parseXMLString_badPitch_aborts docC4 (by decide) (by decide)⟩

theorem readVar_vlqEncodeAux :
    ∀ (m : ℕ) (l : List ℕ) (v : ℕ),
      (readVar (vlqEncodeAux m ++ l) v).1 =
        (readVar l (v * 128 ^ (vlqEncodeAux m).length + m)).1 := by
  intro m
  induction m using Nat.strong_induction_on with
  | _ m ih =>
      match m with
      | 0 => intro l v; simp [vlqEncodeAux]
      | k + 1 =>
          intro l v
          have hq : (k + 1) / 128 < k + 1 := Nat.div_lt_self (Nat.succ_pos k) (by omega)
          rw [vlqEncodeAux, List.append_assoc, List.singleton_append,
            ih ((k + 1) / 128) hq (((k + 1) % 128 + 128) :: l) v]
          have hrem : (k + 1) % 128 < 128 := Nat.mod_lt _ (by omega)
          have hbit : ((k + 1) % 128 + 128) / 128 % 2 = 1 := by omega
          simp only [readVar]
          rw [if_pos hbit]
          have hacc :
              (v * 128 ^ (vlqEncodeAux ((k + 1) / 128)).length + (k + 1) / 128) * 128 +
                  ((k + 1) % 128 + 128) % 128 =
                v * 128 ^ (vlqEncodeAux ((k + 1) / 128) ++ [(k + 1) % 128 + 128]).length +
                  (k + 1) := by
            rw [List.length_append, List.length_singleton, pow_succ, ← mul_assoc]
            have hmod : ((k + 1) % 128 + 128) % 128 = (k + 1) % 128 := by omega
            rw [hmod]
            have hdm : 128 * ((k + 1) / 128) + (k + 1) % 128 = k + 1 :=
              Nat.div_add_mod (k + 1) 128
            generalize hw : v * 128 ^ (vlqEncodeAux ((k + 1) / 128)).length = w
            omega
          rw [hacc]

/-- C8: the SMF parser's VLQ reader is a left inverse of the standard
big-endian 7-bits-per-byte variable-length-quantity encoder for all
`n < 2 ^ 28` (it holds for every `n`; the bound matches the claim). -/
theorem readVar_vlqEncode (n : ℕ) (hn : n < 2 ^ 28) :
    (readVar (vlqEncode n) 0).1 = n := by
  unfold vlqEncode
  rw [readVar_vlqEncodeAux (n / 128) [n % 128] 0]
  have hrem : n % 128 < 128 := Nat.mod_lt _ (by omega)
  have hbit : ¬ ((n % 128) / 128 % 2 = 1) := by omega
  simp only [readVar]
  rw [if_neg hbit]
  have hdm : 128 * (n / 128) + n % 128 = n := Nat.div_add_mod n 128
  simp only [Nat.zero_mul]
  omega

/-- Witness for C8 at `n = 480` (whose encoding is `[0x83, 0x60]`). -/
theorem readVar_vlqEncode_witness :
    480 < 2 ^ 28 ∧ (readVar (vlqEncode 480) 0).1 = 480 :=
  ⟨by norm_num, readVar_vlqEncode 480 (by norm_num)⟩

theorem matchGetLast_eq_elim (s : List MidiEvt) :
    (match s.getLast? with
     | some e => e.time
     | none => (0 : ℚ)) = (s.getLast?).elim 0 (fun e => e.time) := by
  cases s.getLast? <;> rfl

/-- C7: for every input note list, the merge step's `midiEvents` are
non-decreasing in `time`, and `totalDuration` is the last event's
timestamp, or 0 when the event list is empty. -/
theorem merge_events_sorted (l : List TNote) :
    ((merge l).midiEvents).Pairwise (fun a b => a.time ≤ b.time) ∧
    (merge l).totalDuration =
      ((merge l).midiEvents.getLast?).elim 0 (fun e => e.time) := by
  haveI : IsTotal MidiEvt (fun a b => a.time ≤ b.time) :=
    ⟨fun a b => le_total a.time b.time⟩
  haveI : IsTrans MidiEvt (fun a b => a.time ≤ b.time) :=
    ⟨fun _ _ _ h1 h2 => le_trans h1 h2⟩
  constructor
  · simp only [merge]
    exact List.sorted_insertionSort (fun a b : MidiEvt => a.time ≤ b.time) _
  · simp only [merge]
    exact matchGetLast_eq_elim _

theorem insertInner_ne_nil (k : ℤ) (n : TNote) (inner : List (ℤ × TNote)) :
    insertInner k n inner ≠ [] := by
  cases inner with
  | nil => simp [insertInner]
  | cons p rest =>
      rcases p with ⟨k', e⟩
      by_cases h : k' = k <;> simp [insertInner, h]

theorem insertInner_mem (k : ℤ) (n : TNote) :
    ∀ (inner : List (ℤ × TNote)) (p : ℤ × TNote), p ∈ insertInner k n inner →
      p ∈ inner ∨ (p.1 = k ∧ p.2 = n) := by
  intro inner
  induction inner with
  | nil =>
      intro p hp
      rw [insertInner] at hp
      rcases List.mem_singleton.mp hp with rfl
      right; exact ⟨rfl, rfl⟩
  | cons q rest ih =>
      intro p hp
      rcases q with ⟨k', e⟩
      rw [insertInner] at hp
      by_cases h : k' = k
      · rw [if_pos h] at hp
        by_cases hd : n.duration > e.duration
        · rw [if_pos hd] at hp
          rcases List.mem_cons.mp hp with rfl | hmem
          · right; exact ⟨h, rfl⟩
          · left; exact List.mem_cons_of_mem _ hmem
        · rw [if_neg hd] at hp
          rcases List.mem_cons.mp hp with rfl | hmem
          · left; exact List.mem_cons_self _ _
          · left; exact List.mem_cons_of_mem _ hmem
      · rw [if_neg h] at hp
        rcases List.mem_cons.mp hp with rfl | hmem
        · left; exact List.mem_cons_self _ _
        · rcases ih p hmem with hm | hkn
          · left; exact List.mem_cons_of_mem _ hm
          · right; exact hkn

theorem insertInner_keys (k : ℤ) (n : TNote) :
    ∀ inner : List (ℤ × TNote),
      (insertInner k n inner).map Prod.fst =
        if k ∈ inner.map Prod.fst then inner.map Prod.fst
        else inner.map Prod.fst ++ [k] := by
  intro inner
  induction inner with
  | nil => simp [insertInner]
  | cons q rest ih =>
      rcases q with ⟨k', e⟩
      rw [insertInner]
      by_cases h : k' = k
      · subst h
        by_cases hd : n.duration > e.duration <;>
          simp [hd, List.mem_cons]
      · rw [if_neg h]
        simp only [List.map_cons]
        rw [ih]
        by_cases hmem : k ∈ rest.map Prod.fst
        · rw [if_pos hmem, if_pos]
          simp [List.mem_cons, hmem]
        · rw [if_neg hmem, if_neg]
          · simp
          · simp [List.mem_cons, hmem, Ne.symm h]

theorem insertInner_of_not_mem (k : ℤ) (n : TNote) :
    ∀ inner : List (ℤ × TNote), k ∉ inner.map Prod.fst →
      insertInner k n inner = inner ++ [(k, n)] := by
  intro inner
  induction inner with
  | nil => intro; rfl
  | cons q rest ih =>
      rcases q with ⟨k', e⟩
      intro hk
      rw [insertInner, if_neg, ih]
      · rfl
      · intro hmem; exact hk (by simp [hmem])
      · intro rfl'; exact hk (by simp [rfl'])

theorem insertOuter_head_eq (tk : ℚ) (n : TNote) (inner : List (ℤ × TNote))
    (m : List (ℚ × List (ℤ × TNote))) :
    insertOuter tk n ((tk, inner) :: m) =
      (tk, insertInner n.midiNote n inner) :: m := by
  rw [insertOuter, if_pos rfl]

theorem insertOuter_head_ne (tk tk' : ℚ) (n : TNote) (inner : List (ℤ × TNote))
    (m : List (ℚ × List (ℤ × TNote))) (h : tk' ≠ tk) :
    insertOuter tk n ((tk', inner) :: m) = (tk', inner) :: insertOuter tk n m := by
  rw [insertOuter, if_neg h]

theorem insertOuter_groups (tk : ℚ) (n : TNote) :
    ∀ (m : List (ℚ × List (ℤ × TNote))) (g), g ∈ insertOuter tk n m →
      g ∈ m ∨ (g.1 = tk ∧ (g.2 = [(n.midiNote, n)] ∨
        ∃ inner, (tk, inner) ∈ m ∧ g.2 = insertInner n.midiNote n inner)) := by
  intro m
  induction m with
  | nil =>
      intro g hg
      rw [insertOuter] at hg
      rcases List.mem_singleton.mp hg with rfl
      right; exact ⟨rfl, Or.inl rfl⟩
  | cons q rest ih =>
      intro g hg
      rcases q with ⟨tk', inner⟩
      by_cases h : tk' = tk
      · subst h
        rw [insertOuter_head_eq] at hg
        rcases List.mem_cons.mp hg with rfl | hmem
        · right
          exact ⟨rfl, Or.inr ⟨inner, List.mem_cons_self _ _, rfl⟩⟩
        · left; exact List.mem_cons_of_mem _ hmem
      · rw [insertOuter_head_ne _ _ _ _ _ h] at hg
        rcases List.mem_cons.mp hg with rfl | hmem
        · left; exact List.mem_cons_self _ _
        · rcases ih g hmem with hm | ⟨h1, h2⟩
          · left; exact List.mem_cons_of_mem _ hm
          · right
            refine ⟨h1, ?_⟩
            rcases h2 with h2 | ⟨inner', hin, h3⟩
            · exact Or.inl h2
            · exact Or.inr ⟨inner', List.mem_cons_of_mem _ hin, h3⟩

theorem insertOuter_keys (tk : ℚ) (n : TNote) :
    ∀ m : List (ℚ × List (ℤ × TNote)),
      (insertOuter tk n m).map Prod.fst =
        if tk ∈ m.map Prod.fst then m.map Prod.fst
        else m.map Prod.fst ++ [tk] := by
  intro m
  induction m with
  | nil => simp [insertOuter]
  | cons q rest ih =>
      rcases q with ⟨tk', inner⟩
      by_cases h : tk' = tk
      · subst h
        rw [insertOuter_head_eq]
        simp [List.mem_cons]
      · rw [insertOuter_head_ne _ _ _ _ _ h]
        simp only [List.map_cons]
        rw [ih]
        by_cases hmem : tk ∈ rest.map Prod.fst
        · rw [if_pos hmem, if_pos]
          simp [List.mem_cons, hmem]
        · rw [if_neg hmem, if_neg]
          · simp
          · simp [List.mem_cons, hmem, Ne.symm h]

theorem goodMap_insertOuter (n : TNote) (m : List (ℚ × List (ℤ × TNote)))
    (hg : GoodMap m) : GoodMap (insertOuter (timeKey n.startTime) n m) := by
  obtain ⟨hgroups, hkeys⟩ := hg
  constructor
  · intro g hgmem
    rcases insertOuter_groups _ n m g hgmem with hold | ⟨htk, hcase⟩
    · exact hgroups g hold
    · rcases hcase with h1 | ⟨inner, hin, h2⟩
      · refine ⟨by simp [h1], by simp [h1], ?_⟩
        intro p hp
        rw [h1] at hp
        rcases List.mem_singleton.mp hp with rfl
        exact ⟨htk, rfl⟩
      · obtain ⟨hne, hnodup, hcorrect⟩ := hgroups (timeKey n.startTime, inner) hin
        refine ⟨h2 ▸ insertInner_ne_nil _ _ _, ?_, ?_⟩
        · rw [h2, insertInner_keys]
          by_cases hk : n.midiNote ∈ inner.map Prod.fst
          · rw [if_pos hk]; exact hnodup
          · rw [if_neg hk]
            simp only [List.nodup_append, List.nodup_cons, List.nodup_nil]
            exact ⟨hnodup, ⟨by simp, by simp⟩, by
              intro a ha hb
              rcases List.mem_singleton.mp hb with rfl
              exact hk ha⟩
        · intro p hp
          rw [h2] at hp
          rcases insertInner_mem _ _ _ p hp with hm | ⟨hp1, hp2⟩
          · obtain ⟨hc1, hc2⟩ := hcorrect p hm
            exact ⟨htk ▸ hc1, hc2⟩
          · rw [hp1, hp2]; exact ⟨htk, rfl⟩
  · rw [insertOuter_keys]
    by_cases hmem : timeKey n.startTime ∈ m.map Prod.fst
    · rw [if_pos hmem]; exact hkeys
    · rw [if_neg hmem]
      simp only [List.nodup_append, List.nodup_cons, List.nodup_nil]
      exact ⟨hkeys, ⟨by simp, by simp⟩, by
        intro a ha hb
        rcases List.mem_singleton.mp hb with rfl
        exact hmem ha⟩

theorem goodMap_foldl (l : List TNote) :
    ∀ m, GoodMap m →
      GoodMap (l.foldl (fun m n => insertOuter (timeKey n.startTime) n m) m) := by
  induction l with
  | nil => intro m h; exact h
  | cons n l ih => intro m h; exact ih _ (goodMap_insertOuter n m h)

theorem goodMap_buildMap (l : List TNote) : GoodMap (buildMap l) :=
  goodMap_foldl l [] ⟨by simp, by simp⟩

theorem mem_storedNotes (m : List (ℚ × List (ℤ × TNote))) (x : TNote) :
    x ∈ storedNotes m ↔ ∃ g ∈ m, ∃ p ∈ g.2, x = p.2 := by
  unfold storedNotes
  simp only [List.mem_flatMap, List.mem_map]
  constructor
  · rintro ⟨g, hg, p, hp, rfl⟩
    exact ⟨g, hg, p, hp, rfl⟩
  · rintro ⟨g, hg, p, hp, rfl⟩
    exact ⟨g, hg, p, hp, rfl⟩

theorem storedNotes_insertOuter_sub (tk : ℚ) (n : TNote)
    (m : List (ℚ × List (ℤ × TNote))) (x : TNote)
    (hx : x ∈ storedNotes (insertOuter tk n m)) :
    x ∈ storedNotes m ∨ x = n := by
  rcases (mem_storedNotes _ x).mp hx with ⟨g, hg, p, hp, rfl⟩
  rcases insertOuter_groups tk n m g hg with hold | ⟨_, hcase⟩
  · exact Or.inl ((mem_storedNotes _ _).mpr ⟨g, hold, p, hp, rfl⟩)
  · rcases hcase with h1 | ⟨inner, hin, h2⟩
    · rw [h1] at hp
      rcases List.mem_singleton.mp hp with rfl
      exact Or.inr rfl
    · rw [h2] at hp
      rcases insertInner_mem _ _ _ p hp with hm | ⟨_, hp2⟩
      · exact Or.inl ((mem_storedNotes _ _).mpr ⟨(tk, inner), hin, p, hm, rfl⟩)
      · exact Or.inr hp2

theorem foldl_storedNotes_sub (l : List TNote) :
    ∀ (m : List (ℚ × List (ℤ × TNote))) (x : TNote),
      x ∈ storedNotes (l.foldl (fun m n => insertOuter (timeKey n.startTime) n m) m) →
      x ∈ storedNotes m ∨ x ∈ l := by
  induction l with
  | nil => intro m x h; exact Or.inl h
  | cons n l ih =>
      intro m x h
      rw [List.foldl_cons] at h
      rcases ih _ x h with hm | hl
      · rcases storedNotes_insertOuter_sub _ n m x hm with hm' | rfl
        · exact Or.inl hm'
        · exact Or.inr (List.mem_cons_self _ _)
      · exact Or.inr (List.mem_cons_of_mem _ hl)

theorem survivors_sub (l : List TNote) (x : TNote) (hx : x ∈ survivors l) :
    x ∈ l := by
  rcases foldl_storedNotes_sub l [] x hx with hm | hl
  · simp [storedNotes] at hm
  · exact hl

theorem foldl_head_preserve :
    ∀ (ns : List TNote) (tk : ℚ) (inner : List (ℤ × TNote))
      (m : List (ℚ × List (ℤ × TNote))),
      (∀ n ∈ ns, timeKey n.startTime ≠ tk) →
      ns.foldl (fun m n => insertOuter (timeKey n.startTime) n m) ((tk, inner) :: m) =
        (tk, inner) :: ns.foldl (fun m n => insertOuter (timeKey n.startTime) n m) m := by
  intro ns
  induction ns with
  | nil => intro tk inner m _; rfl
  | cons n ns ih =>
      intro tk inner m hne
      rw [List.foldl_cons, List.foldl_cons]
      rw [insertOuter_head_ne _ _ _ _ _ (Ne.symm (hne n (List.mem_cons_self _ _)))]
      exact ih tk inner _ (fun x hx => hne x (List.mem_cons_of_mem _ hx))

theorem foldl_grow_inner :
    ∀ (todo done : List (ℤ × TNote)) (tk : ℚ),
      (∀ p ∈ todo, tk = timeKey p.2.startTime ∧ p.1 = p.2.midiNote) →
      ((done ++ todo).map Prod.fst).Nodup →
      (todo.map Prod.snd).foldl (fun m n => insertOuter (timeKey n.startTime) n m)
          [(tk, done)] =
        [(tk, done ++ todo)] := by
  intro todo
  induction todo with
  | nil => intro done tk _ _; simp
  | cons p todo ih =>
      intro done tk hcorrect hnodup
      rcases p with ⟨k, nn⟩
      obtain ⟨hp1, hp2⟩ := hcorrect (k, nn) (List.mem_cons_self _ _)
      rw [List.map_cons, List.foldl_cons]
      have hstep : insertOuter (timeKey nn.startTime) nn [(tk, done)] =
          [(tk, done ++ [(k, nn)])] := by
        rw [show timeKey nn.startTime = tk from hp1.symm, insertOuter_head_eq]
        rw [show nn.midiNote = k from hp2.symm]
        rw [insertInner_of_not_mem]
        intro hk
        have : ¬ ((done ++ (k, nn) :: todo).map Prod.fst).Nodup := by
          simp only [List.map_append, List.map_cons, List.nodup_append]
          intro ⟨_, _, hdisj⟩
          exact hdisj hk (by simp)
        exact this hnodup
      rw [hstep]
      have hnodup' : (((done ++ [(k, nn)]) ++ todo).map Prod.fst).Nodup := by
        rw [List.append_assoc, List.singleton_append]
        exact hnodup
      rw [ih (done ++ [(k, nn)]) tk
        (fun q hq => hcorrect q (List.mem_cons_of_mem _ hq)) hnodup']
      rw [List.append_assoc, List.singleton_append]

theorem storedNotes_timeKey_mem :
    ∀ m : List (ℚ × List (ℤ × TNote)),
      (∀ g ∈ m, ∀ p ∈ g.2, g.1 = timeKey p.2.startTime) →
      ∀ x ∈ storedNotes m, timeKey x.startTime ∈ m.map Prod.fst := by
  intro m hcorrect x hx
  rcases (mem_storedNotes m x).mp hx with ⟨g, hg, p, hp, rfl⟩
  rw [← hcorrect g hg p hp]
  exact List.mem_map_of_mem Prod.fst hg

theorem goodMap_tail (g : ℚ × List (ℤ × TNote))
    (m : List (ℚ × List (ℤ × TNote))) (h : GoodMap (g :: m)) : GoodMap m := by
  obtain ⟨hgroups, hkeys⟩ := h
  exact ⟨fun g' hg' => hgroups g' (List.mem_cons_of_mem _ hg'),
    (List.nodup_cons.mp (by simpa using hkeys)).2⟩

theorem buildMap_storedNotes :
    ∀ m : List (ℚ × List (ℤ × TNote)), GoodMap m → buildMap (storedNotes m) = m := by
  intro m
  induction m with
  | nil => intro; rfl
  | cons g rest ih =>
      intro hg
      rcases g with ⟨tk, inner⟩
      have hstored : storedNotes ((tk, inner) :: rest) =
          inner.map Prod.snd ++ storedNotes rest := by
        simp [storedNotes]
      rw [hstored]
      unfold buildMap
      rw [List.foldl_append]
      obtain ⟨hgroups, hkeys⟩ := hg
      obtain ⟨hne, hnodup, hcorrect⟩ := hgroups (tk, inner) (List.mem_cons_self _ _)
      cases inner with
      | nil => exact absurd rfl hne
      | cons p inner' =>
          rcases p with ⟨k, nn⟩
          obtain ⟨hp1, hp2⟩ := hcorrect (k, nn) (List.mem_cons_self _ _)
          have hfirst : insertOuter (timeKey nn.startTime) nn [] =
              [(tk, [(k, nn)])] := by
            rw [insertOuter]
            rw [show timeKey nn.startTime = tk from hp1.symm,
              show nn.midiNote = k from hp2.symm]
          have hgrow := foldl_grow_inner inner' [(k, nn)] tk
            (fun q hq => hcorrect q (List.mem_cons_of_mem _ hq))
            (by simpa using hnodup)
          rw [List.map_cons, List.foldl_cons, hfirst, hgrow]
          rw [List.singleton_append]
          have hrestne : ∀ x ∈ storedNotes rest, timeKey x.startTime ≠ tk := by
            intro x hx htk
            have hmem := storedNotes_timeKey_mem rest
              (fun g' hg' p' hp' => (hgroups g' (List.mem_cons_of_mem _ hg') |>.2.2 p' hp').1)
              x hx
            rw [htk] at hmem
            exact (List.nodup_cons.mp (by simpa using hkeys)).1 hmem
          rw [foldl_head_preserve (storedNotes rest) tk ((k, nn) :: inner') [] hrestne]
          have := ih (goodMap_tail _ _ ⟨hgroups, hkeys⟩)
          unfold buildMap at this
          rw [this]

theorem survivors_idem (l : List TNote) : survivors (survivors l) = survivors l := by
  show storedNotes (buildMap (storedNotes (buildMap l))) = storedNotes (buildMap l)
  rw [buildMap_storedNotes (buildMap l) (goodMap_buildMap l)]

theorem insertInner_atLeast (k' : ℤ) (n : TNote) :
    ∀ (inner : List (ℤ × TNote)) (k : ℤ) (d : ℤ),
      (∃ p ∈ inner, p.1 = k ∧ d ≤ p.2.duration) →
      ∃ p ∈ insertInner k' n inner, p.1 = k ∧ d ≤ p.2.duration := by
  intro inner
  induction inner with
  | nil => rintro k d ⟨p, hp, _⟩; exact absurd hp (List.not_mem_nil p)
  | cons q rest ih =>
      rintro k d ⟨p, hp, hpk, hpd⟩
      rcases q with ⟨k₀, e⟩
      rw [insertInner]
      by_cases h : k₀ = k'
      · rw [if_pos h]
        rcases List.mem_cons.mp hp with rfl | hmem
        · by_cases hd : n.duration > e.duration
          · rw [if_pos hd]
            exact ⟨(k₀, n), List.mem_cons_self _ _, hpk, le_trans hpd (le_of_lt hd)⟩
          · rw [if_neg hd]
            exact ⟨(k₀, e), List.mem_cons_self _ _, hpk, hpd⟩
        · by_cases hd : n.duration > e.duration
          · rw [if_pos hd]
            exact ⟨p, List.mem_cons_of_mem _ hmem, hpk, hpd⟩
          · rw [if_neg hd]
            exact ⟨p, List.mem_cons_of_mem _ hmem, hpk, hpd⟩
      · rw [if_neg h]
        rcases List.mem_cons.mp hp with rfl | hmem
        · exact ⟨(k₀, e), List.mem_cons_self _ _, hpk, hpd⟩
        · obtain ⟨p', hp', hk', hd'⟩ := ih k d ⟨p, hmem, hpk, hpd⟩
          exact ⟨p', List.mem_cons_of_mem _ hp', hk', hd'⟩

theorem insertInner_self_atLeast (k : ℤ) (n : TNote) :
    ∀ inner : List (ℤ × TNote),
      ∃ p ∈ insertInner k n inner, p.1 = k ∧ n.duration ≤ p.2.duration := by
  intro inner
  induction inner with
  | nil => exact ⟨(k, n), List.mem_singleton.mpr rfl, rfl, le_refl _⟩
  | cons q rest ih =>
      rcases q with ⟨k₀, e⟩
      rw [insertInner]
      by_cases h : k₀ = k
      · rw [if_pos h]
        by_cases hd : n.duration > e.duration
        · rw [if_pos hd]
          exact ⟨(k₀, n), List.mem_cons_self _ _, h, le_refl _⟩
        · rw [if_neg hd]
          exact ⟨(k₀, e), List.mem_cons_self _ _, h, le_of_not_lt hd⟩
      · rw [if_neg h]
        obtain ⟨p, hp, hk, hdn⟩ := ih
        exact ⟨p, List.mem_cons_of_mem _ hp, hk, hdn⟩

theorem insertOuter_atLeast (tk' : ℚ) (n : TNote) :
    ∀ (m : List (ℚ × List (ℤ × TNote))) (tk : ℚ) (k : ℤ) (d : ℤ),
      (∃ g ∈ m, g.1 = tk ∧ ∃ p ∈ g.2, p.1 = k ∧ d ≤ p.2.duration) →
      ∃ g ∈ insertOuter tk' n m, g.1 = tk ∧ ∃ p ∈ g.2, p.1 = k ∧ d ≤ p.2.duration := by
  intro m
  induction m with
  | nil => rintro tk k d ⟨g, hg, _⟩; exact absurd hg (List.not_mem_nil g)
  | cons q rest ih =>
      rintro tk k d ⟨g, hg, hgtk, hinner⟩
      rcases q with ⟨tk₀, inner⟩
      by_cases h : tk₀ = tk'
      · subst h
        rw [insertOuter_head_eq]
        rcases List.mem_cons.mp hg with rfl | hmem
        · exact ⟨(tk₀, insertInner n.midiNote n inner), List.mem_cons_self _ _,
            hgtk, insertInner_atLeast _ n inner k d hinner⟩
        · exact ⟨g, List.mem_cons_of_mem _ hmem, hgtk, hinner⟩
      · rw [insertOuter_head_ne _ _ _ _ _ h]
        rcases List.mem_cons.mp hg with rfl | hmem
        · exact ⟨(tk₀, inner), List.mem_cons_self _ _, hgtk, hinner⟩
        · obtain ⟨g', hg', htk', hin'⟩ := ih tk k d ⟨g, hmem, hgtk, hinner⟩
          exact ⟨g', List.mem_cons_of_mem _ hg', htk', hin'⟩

theorem insertOuter_self_atLeast (n : TNote) :
    ∀ m : List (ℚ × List (ℤ × TNote)),
      ∃ g ∈ insertOuter (timeKey n.startTime) n m, g.1 = timeKey n.startTime ∧
        ∃ p ∈ g.2, p.1 = n.midiNote ∧ n.duration ≤ p.2.duration := by
  intro m
  induction m with
  | nil =>
      refine ⟨(timeKey n.startTime, [(n.midiNote, n)]), ?_, rfl,
        (n.midiNote, n), List.mem_singleton.mpr rfl, rfl, le_refl _⟩
      rw [insertOuter]
      exact List.mem_singleton.mpr rfl
  | cons q rest ih =>
      rcases q with ⟨tk₀, inner⟩
      by_cases h : tk₀ = timeKey n.startTime
      · rw [h, insertOuter_head_eq]
        exact ⟨(timeKey n.startTime, insertInner n.midiNote n inner),
          List.mem_cons_self _ _, rfl, insertInner_self_atLeast n.midiNote n inner⟩
      · rw [insertOuter_head_ne _ _ _ _ _ h]
        obtain ⟨g, hg, htk, hin⟩ := ih
        exact ⟨g, List.mem_cons_of_mem _ hg, htk, hin⟩

theorem foldl_atLeast_mono (l : List TNote) :
    ∀ (m : List (ℚ × List (ℤ × TNote))) (tk : ℚ) (k : ℤ) (d : ℤ),
      (∃ g ∈ m, g.1 = tk ∧ ∃ p ∈ g.2, p.1 = k ∧ d ≤ p.2.duration) →
      ∃ g ∈ l.foldl (fun m n => insertOuter (timeKey n.startTime) n m) m,
        g.1 = tk ∧ ∃ p ∈ g.2, p.1 = k ∧ d ≤ p.2.duration := by
  induction l with
  | nil => intro m tk k d h; exact h
  | cons n l ih =>
      intro m tk k d h
      rw [List.foldl_cons]
      exact ih _ tk k d (insertOuter_atLeast _ n m tk k d h)

theorem buildMap_atLeast (l : List TNote) :
    ∀ x ∈ l, ∃ g ∈ buildMap l, g.1 = timeKey x.startTime ∧
      ∃ p ∈ g.2, p.1 = x.midiNote ∧ x.duration ≤ p.2.duration := by
  suffices h : ∀ (l₂ l₁ : List TNote) (m : List (ℚ × List (ℤ × TNote))),
      (∀ x ∈ l₁, ∃ g ∈ m, g.1 = timeKey x.startTime ∧
        ∃ p ∈ g.2, p.1 = x.midiNote ∧ x.duration ≤ p.2.duration) →
      ∀ x ∈ l₁ ++ l₂,
        ∃ g ∈ l₂.foldl (fun m n => insertOuter (timeKey n.startTime) n m) m,
          g.1 = timeKey x.startTime ∧
          ∃ p ∈ g.2, p.1 = x.midiNote ∧ x.duration ≤ p.2.duration by
    intro x hx
    exact h l [] [] (by intro y hy; exact absurd hy (List.not_mem_nil y)) x
      (by simpa using hx)
  intro l₂
  induction l₂ with
  | nil =>
      intro l₁ m hm x hx
      rw [List.append_nil] at hx
      exact hm x hx
  | cons n l₂ ih =>
      intro l₁ m hm x hx
      rw [List.foldl_cons]
      have hm' : ∀ y ∈ l₁ ++ [n],
          ∃ g ∈ insertOuter (timeKey n.startTime) n m, g.1 = timeKey y.startTime ∧
            ∃ p ∈ g.2, p.1 = y.midiNote ∧ y.duration ≤ p.2.duration := by
        intro y hy
        rcases List.mem_append.mp hy with hy1 | hy2
        · exact insertOuter_atLeast _ n m _ _ _ (hm y hy1)
        · rcases List.mem_singleton.mp hy2 with rfl
          exact insertOuter_self_atLeast y m
      have hx' : x ∈ (l₁ ++ [n]) ++ l₂ := by
        rw [List.append_assoc, List.singleton_append]
        exact hx
      exact ih (l₁ ++ [n]) _ hm' x hx'

theorem storedNotes_keys_nodup :
    ∀ m : List (ℚ × List (ℤ × TNote)), GoodMap m →
      ((storedNotes m).map (fun sn => (timeKey sn.startTime, sn.midiNote))).Nodup := by
  intro m
  induction m with
  | nil => intro; simp [storedNotes]
  | cons g rest ih =>
      intro hg
      rcases g with ⟨tk, inner⟩
      obtain ⟨hgroups, hkeys⟩ := hg
      obtain ⟨hne, hnodup, hcorrect⟩ := hgroups (tk, inner) (List.mem_cons_self _ _)
      have hstored : storedNotes ((tk, inner) :: rest) =
          inner.map Prod.snd ++ storedNotes rest := by simp [storedNotes]
      rw [hstored, List.map_append, List.nodup_append]
      refine ⟨?_, ih (goodMap_tail _ _ ⟨hgroups, hkeys⟩), ?_⟩
      · have hmapeq :
            (inner.map Prod.snd).map (fun sn => (timeKey sn.startTime, sn.midiNote)) =
              (inner.map Prod.fst).map (fun k => (tk, k)) := by
          rw [List.map_map, List.map_map]
          apply List.map_congr_left
          intro p hp
          obtain ⟨h1, h2⟩ := hcorrect p hp
          simp [Function.comp, ← h1, h2]
        rw [hmapeq]
        refine hnodup.map ?_
        intro a b hab
        simpa using hab
      · intro a ha hb
        rcases List.mem_map.mp ha with ⟨sn, hsn, rfl⟩
        rcases List.mem_map.mp hb with ⟨x, hx, hax⟩
        rcases List.mem_map.mp hsn with ⟨p, hp, rfl⟩
        have h1 : timeKey p.2.startTime = tk := (hcorrect p hp).1.symm
        have h2 : timeKey x.startTime ∈ rest.map Prod.fst :=
          storedNotes_timeKey_mem rest
            (fun g' hg' p' hp' =>
              (hgroups g' (List.mem_cons_of_mem _ hg')).2.2 p' hp' |>.1)
            x hx
        have h3 : timeKey x.startTime = timeKey p.2.startTime := by
          have := congrArg Prod.fst hax
          simpa using this
        rw [h3, h1] at h2
        exact (List.nodup_cons.mp (by simpa using hkeys)).1 h2

theorem survivors_keys_nodup (l : List TNote) :
    ((survivors l).map (fun sn => (timeKey sn.startTime, sn.midiNote))).Nodup :=
  storedNotes_keys_nodup (buildMap l) (goodMap_buildMap l)

theorem survivors_dominates (l : List TNote) (x : TNote) (hx : x ∈ l) :
    ∃ sn ∈ survivors l, timeKey sn.startTime = timeKey x.startTime ∧
      sn.midiNote = x.midiNote ∧ x.duration ≤ sn.duration := by
  obtain ⟨g, hg, hgtk, p, hp, hpk, hpd⟩ := buildMap_atLeast l x hx
  have hgood := (goodMap_buildMap l).1 g hg
  obtain ⟨hc1, hc2⟩ := hgood.2.2 p hp
  refine ⟨p.2, ?_, ?_, ?_, hpd⟩
  · exact (mem_storedNotes _ _).mpr ⟨g, hg, p, hp, rfl⟩
  · rw [← hc1, hgtk]
  · rw [← hc2, hpk]

/-- C6: the dedup groups by (rounded start time, pitch) and keeps
exactly one note per group — the output keys are duplicate-free and each
input note is dominated by a kept note of its group with at least its
duration (a strictly greater duration replaces, ties keep the first
seen, as the concrete pairs show) — and it is idempotent: merging an
already-merged list reproduces it; an exact duplicate (start, pitch)
pair with differing durations keeps only the longer note. -/
theorem merge_dedup_policy :
    (∀ l : List TNote, survivors (survivors l) = survivors l) ∧
    (∀ l : List TNote,
      ((survivors l).map (fun sn => (timeKey sn.startTime, sn.midiNote))).Nodup) ∧
    (∀ l : List TNote, ∀ x ∈ l, ∃ sn ∈ survivors l,
      timeKey sn.startTime = timeKey x.startTime ∧ sn.midiNote = x.midiNote ∧
      x.duration ≤ sn.duration) ∧
    survivors [shortC6, longC6] = [longC6] ∧
    survivors [longC6, shortC6] = [longC6] ∧
    survivors [shortC6, tieC6] = [shortC6] := by
  refine ⟨survivors_idem, survivors_keys_nodup, survivors_dominates, ?_, ?_, ?_⟩ <;>
    norm_num [survivors, storedNotes, buildMap, insertOuter, insertInner,
      timeKey, jsRound, shortC6, longC6, tieC6, List.foldl]

/-- Witness for C6's quantified conjunct at a concrete one-note list. -/
theorem merge_dedup_policy_witness :
    shortC6 ∈ [shortC6] ∧
    ∃ sn ∈ survivors [shortC6], timeKey sn.startTime = timeKey shortC6.startTime ∧
      sn.midiNote = shortC6.midiNote ∧ shortC6.duration ≤ sn.duration :=
  ⟨List.mem_singleton.mpr rfl,
   merge_dedup_policy.2.2.1 [shortC6] shortC6 (List.mem_singleton.mpr rfl)⟩

theorem allNotesOf_midiNote_ne_zero (sd : ScoreData) (x : TNote)
    (hx : x ∈ allNotesOf sd) : x.midiNote ≠ 0 := by
  simp only [allNotesOf] at hx
  rw [List.mem_flatten] at hx
  rcases hx with ⟨inner, hinner, hxin⟩
  rcases List.mem_map.mp hinner with ⟨mi, _, rfl⟩
  rcases List.mem_map.mp hxin with ⟨n, hn, rfl⟩
  have hpred := List.of_mem_filter hn
  simp only [Bool.and_eq_true, bne_iff_ne] at hpred
  exact hpred.2

theorem merge_pair_pitch (l : List TNote) (hl : ∀ x ∈ l, x.midiNote ≠ 0) :
    ∀ p ∈ (merge l).notePairs, p.note ≠ 0 := by
  intro p hp
  simp only [merge] at hp
  rcases List.mem_map.mp hp with ⟨n, hn, rfl⟩
  exact hl n (survivors_sub l n hn)

theorem merge_event_pitch (l : List TNote) (hl : ∀ x ∈ l, x.midiNote ≠ 0) :
    ∀ ev ∈ (merge l).midiEvents, ev.data.getD 1 0 ≠ 0 := by
  intro ev hev
  simp only [merge] at hev
  rw [List.mem_insertionSort] at hev
  rcases List.mem_flatMap.mp hev with ⟨n, hn, hev2⟩
  have hnz : n.midiNote ≠ 0 := hl n (survivors_sub l n hn)
  simp only [List.mem_cons, List.mem_singleton] at hev2
  rcases hev2 with rfl | rfl | h
  · simpa using hnz
  · simpa using hnz
  · exact absurd h (List.not_mem_nil ev)

/-- C10: a non-rest note whose computed MIDI pitch is exactly 0 is
excluded from `midiEvents` and `notePairs` by the truthiness check
`note.midiNote` — no emitted event or pair ever carries pitch 0 — and
the concrete score with the single note (step C, octave -1, alter 0,
whose `stepToMidi` value is 0) converts to an empty result. -/
theorem convertToMIDI_pitchZero_excluded :
    (∀ sd : ScoreData, ∀ p ∈ (convertToMIDI sd).notePairs, p.note ≠ 0) ∧
    (∀ sd : ScoreData, ∀ ev ∈ (convertToMIDI sd).midiEvents, ev.data.getD 1 0 ≠ 0) ∧
    stepToMidi .C (-1) 0 = 0 ∧
    convertToMIDI sdC10 =
      { midiEvents := [], notePairs := [], totalDuration := 0 } := by
  refine ⟨?_, ?_, by decide, by decide⟩
  · intro sd p hp
    exact merge_pair_pitch _ (fun x hx => allNotesOf_midiNote_ne_zero sd x hx) p hp
  · intro sd ev hev
    exact merge_event_pitch _ (fun x hx => allNotesOf_midiNote_ne_zero sd x hx) ev hev

/-- Witness for C10's quantified conjunct at the example-A score. -/
theorem convertToMIDI_pitchZero_excluded_witness :
    ((⟨60, 0, 500⟩ : NotePair) ∈ (convertToMIDI sdC2).notePairs) ∧
    (⟨60, 0, 500⟩ : NotePair).note ≠ 0 :=
  ⟨by norm_num [convertToMIDI, merge, allNotesOf, msPerDivisionOf, survivors,
      storedNotes, buildMap, insertOuter, insertInner, timeKey, jsRound,
      sdC2, List.enum, List.enumFrom, List.filter, List.foldl, List.flatMap,
      List.insertionSort, List.orderedInsert],
   convertToMIDI_pitchZero_excluded.1 sdC2 ⟨60, 0, 500⟩
     (by norm_num [convertToMIDI, merge, allNotesOf, msPerDivisionOf, survivors,
        storedNotes, buildMap, insertOuter, insertInner, timeKey, jsRound,
        sdC2, List.enum, List.enumFrom, List.filter, List.foldl, List.flatMap,
        List.insertionSort, List.orderedInsert])⟩

theorem fallbackGo_none_of_ge (data : List ℕ) :
    ∀ fuel i, data.length - 5 ≤ i → fallbackGo data fuel i = none := by
  intro fuel
  cases fuel with
  | zero => intro i _; rfl
  | succ fuel => intro i h; rw [fallbackGo, if_neg (by omega)]

theorem fallbackGo_skip (data : List ℕ) (fuel i : ℕ)
    (hmiss : ¬(prologAt data i = true ∧ tagSearch (fallbackWindow data i) ≠ none)) :
    fallbackGo data (fuel + 1) i = fallbackGo data fuel (i + 1) := by
  rw [fallbackGo]
  by_cases hi : i < data.length - 5
  · rw [if_pos hi]
    by_cases hp : prologAt data i = true
    · cases ht : tagSearch (fallbackWindow data i) with
      | none => simp [hp, ht]
      | some e => exact absurd ⟨hp, by rw [ht]; simp⟩ hmiss
    · simp [hp]
  · rw [if_neg hi]
    exact (fallbackGo_none_of_ge data fuel (i + 1) (by omega)).symm

theorem fallbackGo_skip_many (data : List ℕ) :
    ∀ (delta k fuel : ℕ),
      (∀ j, k ≤ j → j < k + delta →
        ¬(prologAt data j = true ∧ tagSearch (fallbackWindow data j) ≠ none)) →
      fallbackGo data (delta + fuel) k = fallbackGo data fuel (k + delta) := by
  intro delta
  induction delta with
  | zero =>
      intro k fuel _
      rw [Nat.zero_add, Nat.add_zero]
  | succ delta ih =>
      intro k fuel h
      have harr : delta + 1 + fuel = delta + fuel + 1 := by omega
      rw [harr, fallbackGo_skip data (delta + fuel) k (h k le_rfl (by omega))]
      rw [ih (k + 1) fuel (fun j hj1 hj2 => h j (by omega) (by omega))]
      congr 1
      omega

theorem isPrefixOf_length_le (pat l : List ℕ) (h : pat.isPrefixOf l = true) :
    pat.length ≤ l.length :=
  List.IsPrefix.length_le (List.isPrefixOf_iff_prefix.mp h)

theorem idxOf_le_length (pat : List ℕ) :
    ∀ (l : List ℕ) (j : ℕ), idxOf pat l = some j → j + pat.length ≤ l.length := by
  intro l
  induction l with
  | nil =>
      intro j h
      rw [idxOf] at h
      by_cases hp : pat.isPrefixOf ([] : List ℕ) = true
      · rw [if_pos hp] at h
        cases h
        simpa using isPrefixOf_length_le pat [] hp
      · rw [if_neg hp] at h
        cases h
  | cons b rest ih =>
      intro j h
      rw [idxOf] at h
      by_cases hp : pat.isPrefixOf (b :: rest) = true
      · rw [if_pos hp] at h
        cases h
        simpa using isPrefixOf_length_le pat (b :: rest) hp
      · rw [if_neg hp] at h
        cases hrec : idxOf pat rest with
        | none => rw [hrec] at h; cases h
        | some j' =>
            rw [hrec] at h
            simp only [Option.map_some'] at h
            cases h
            have := ih j' hrec
            simp only [List.length_cons]
            omega

theorem idxOf_matchAt (pat : List ℕ) :
    ∀ (l : List ℕ) (j : ℕ), idxOf pat l = some j →
      pat.isPrefixOf (l.drop j) = true := by
  intro l
  induction l with
  | nil =>
      intro j h
      rw [idxOf] at h
      by_cases hp : pat.isPrefixOf ([] : List ℕ) = true
      · rw [if_pos hp] at h; cases h; simpa using hp
      · rw [if_neg hp] at h; cases h
  | cons b rest ih =>
      intro j h
      rw [idxOf] at h
      by_cases hp : pat.isPrefixOf (b :: rest) = true
      · rw [if_pos hp] at h; cases h; simpa using hp
      · rw [if_neg hp] at h
        cases hrec : idxOf pat rest with
        | none => rw [hrec] at h; cases h
        | some j' =>
            rw [hrec] at h
            simp only [Option.map_some'] at h
            cases h
            simpa using ih j' hrec

theorem tagSearch_le_length (content : List ℕ) (e : ℕ)
    (h : tagSearch content = some e) : e + 17 ≤ content.length := by
  unfold tagSearch at h
  cases h1 : idxOf partwiseTag content with
  | some j =>
      rw [h1] at h
      cases h
      simpa using idxOf_le_length partwiseTag content e h1
  | none =>
      rw [h1] at h
      simpa using idxOf_le_length timewiseTag content e h

theorem tagSearch_suffix (content : List ℕ) (e : ℕ)
    (h : tagSearch content = some e) :
    partwiseTag.isPrefixOf (content.drop e) = true ∨
      timewiseTag.isPrefixOf (content.drop e) = true := by
  unfold tagSearch at h
  cases h1 : idxOf partwiseTag content with
  | some j =>
      rw [h1] at h
      cases h
      exact Or.inl (idxOf_matchAt partwiseTag content e h1)
  | none =>
      rw [h1] at h
      exact Or.inr (idxOf_matchAt timewiseTag content e h)

theorem fallbackWindow_length_le (data : List ℕ) (i : ℕ) :
    (fallbackWindow data i).length ≤ data.length - i := by
  simp only [fallbackWindow, List.length_take, List.length_drop]
  omega

theorem tag_take_17 (tag content : List ℕ) (e : ℕ) (hlen : tag.length = 17)
    (hpre : tag.isPrefixOf (content.drop e) = true) :
    content.take (e + 17) = content.take e ++ tag := by
  rw [List.take_add]
  congr 1
  have := List.prefix_iff_eq_take.mp (List.isPrefixOf_iff_prefix.mp hpre)
  rw [hlen] at this
  exact this.symm

/-- C9: on a buffer with no ZIP local-file-header signature, the
byte-pattern fallback is deterministic: at the first `<?xml` offset
whose bounded window contains a closing tag, it returns exactly the
bytes from that prolog through the first closing
`</score-partwise>`/`</score-timewise>` tag inclusive; when no prolog
offset has a closing tag in its window it returns no data (`none`)
rather than raising (the embedding is a total function). -/
theorem extractMXLFallback_spec (data : List ℕ) (hnosig : noZipSig data = true) :
    (∀ i, prologAt data i = true →
      tagSearch (fallbackWindow data i) ≠ none →
      (∀ j, j < i → ¬(prologAt data j = true ∧ tagSearch (fallbackWindow data j) ≠ none)) →
      ∃ e, tagSearch (fallbackWindow data i) = some e ∧
        extractMXLFallback data = some ((fallbackWindow data i).take (e + 17)) ∧
        (partwiseTag.isSuffixOf ((fallbackWindow data i).take (e + 17)) = true ∨
         timewiseTag.isSuffixOf ((fallbackWindow data i).take (e + 17)) = true)) ∧
    ((∀ j, ¬(prologAt data j = true ∧ tagSearch (fallbackWindow data j) ≠ none)) →
      extractMXLFallback data = none) := by
  constructor
  · intro i hp ht hleast
    cases hts : tagSearch (fallbackWindow data i) with
    | none => exact absurd hts ht
    | some e =>
        refine ⟨e, rfl, ?_, ?_⟩
        · have hwl := fallbackWindow_length_le data i
          have hel := tagSearch_le_length _ e hts
          have hi : i < data.length - 5 := by omega
          unfold extractMXLFallback
          have harr : data.length - 5 = i + (data.length - 5 - i) := by omega
          rw [harr, fallbackGo_skip_many data i 0 (data.length - 5 - i)
            (fun j hj1 hj2 => hleast j (by omega))]
          rw [Nat.zero_add]
          have hfuel : data.length - 5 - i = (data.length - 5 - i - 1) + 1 := by omega
          rw [hfuel, fallbackGo, if_pos hi, if_pos hp, hts]
        · rcases tagSearch_suffix _ e hts with hpre | hpre
          · left
            rw [tag_take_17 partwiseTag _ e (by decide) hpre]
            exact List.isSuffixOf_iff_suffix.mpr (List.suffix_append _ _)
          · right
            rw [tag_take_17 timewiseTag _ e (by decide) hpre]
            exact List.isSuffixOf_iff_suffix.mpr (List.suffix_append _ _)
  · intro h
    unfold extractMXLFallback
    have harr : data.length - 5 = (data.length - 5) + 0 := by omega
    rw [harr, fallbackGo_skip_many data (data.length - 5) 0 0
      (fun j hj1 hj2 => h j)]
    rfl

/-- Witness for C9 at `dataC9`, whose prolog sits at offset 2. -/
theorem extractMXLFallback_spec_witness :
    noZipSig dataC9 = true ∧
    (∃ e, tagSearch (fallbackWindow dataC9 2) = some e ∧
      extractMXLFallback dataC9 = some ((fallbackWindow dataC9 2).take (e + 17)) ∧
      (partwiseTag.isSuffixOf ((fallbackWindow dataC9 2).take (e + 17)) = true ∨
       timewiseTag.isSuffixOf ((fallbackWindow dataC9 2).take (e + 17)) = true)) :=
  ⟨by decide,
   (extractMXLFallback_spec dataC9 (by decide)).1 2 (by decide) (by decide)
     (by decide)⟩
